import Mathlib

/-!
Verification of the XES→CSV converter (src/change.go).

Shallow embedding conventions:
* Go strings are Lean `String`s; character-level operations (`strings.TrimSpace`,
  `strings.ToLower`, `strings.HasSuffix`, `path/filepath.Clean`) are modelled by
  executable functions over `String.data : List Char`.  `trimSpace` models
  `strings.TrimSpace` on the ASCII/Latin-1 part of Go's `unicode.IsSpace`
  (' ', '\t', '\n', '\v', '\f', '\r', U+0085, U+00A0); the remaining Unicode
  space runes are not modelled.  `charToLower` models `unicode.ToLower`
  restricted to ASCII letters.
* The Go `map[string]struct{}` used for the key set is modelled as a duplicate-free
  `List String` in insertion order (`insertKey`).  Go's map iteration order is
  unspecified; insertion order is one admissible iteration order, and every
  order-sensitive statement proved below is either order-invariant (multiset
  counts, memberships, lengths) or explicitly about this one admissible order.
* The CSV writer is modelled by returning the list of records that
  `writeXESToCSV` passes to `csv.Writer.Write`, in order.  File-system effects of
  `ConvertXESToCSV` are modelled by an explicit trace of attempted actions
  (`FsAction`), with the outcomes of `os.Open`, `xml.Decode` and `os.Create`
  supplied as parameters (`openOk`, `parsed`, `createOk`).
-/

namespace XesToCsv

/-- Model of Go struct `StringAttribute` (src/change.go): `key`/`value` XML attributes. -/
structure StringAttribute where
  key : String
  value : String
deriving DecidableEq

/-- Model of Go struct `DateAttribute` (src/change.go). -/
structure DateAttribute where
  key : String
  value : String
deriving DecidableEq

/-- Model of Go struct `Event`: string attributes and date attributes, in document order. -/
structure Event where
  stringAttributes : List StringAttribute
  dateAttributes : List DateAttribute
deriving DecidableEq

/-- Model of Go struct `Trace`: events and trace-level string attributes, in document order. -/
structure Trace where
  events : List Event
  stringAttributes : List StringAttribute
deriving DecidableEq

/-- Model of Go struct `XES`: the parsed log, an ordered list of traces. -/
structure XES where
  traces : List Trace
deriving DecidableEq

/-- Character class of Go's `unicode.IsSpace` restricted to ASCII/Latin-1
(tab, newline, vertical tab, form feed, carriage return, space, NEL, NBSP). -/
def isSpaceChar (c : Char) : Bool :=
  c = ' ' || c = '\t' || c = '\n' || c = '\r' ||
    c.toNat = 11 || c.toNat = 12 || c.toNat = 133 || c.toNat = 160

/-- Character-list core of `strings.TrimSpace`: drop leading and trailing space characters. -/
def trimChars (l : List Char) : List Char :=
  ((l.dropWhile isSpaceChar).reverse.dropWhile isSpaceChar).reverse

/-- Model of Go `strings.TrimSpace`. -/
def trimSpace (s : String) : String :=
  ⟨trimChars s.data⟩

/-- Model of Go `unicode.ToLower` on ASCII letters (all inputs relevant here are ASCII). -/
def charToLower (c : Char) : Char :=
  if 'A' ≤ c && c ≤ 'Z' then Char.ofNat (c.toNat + 32) else c

/-- Model of Go `strings.ToLower`. -/
def toLowerGo (s : String) : String :=
  ⟨s.data.map charToLower⟩

/-- Model of Go `strings.HasSuffix`. -/
def hasSuffixGo (s suffix : String) : Bool :=
  List.isSuffixOf suffix.data s.data

/-- Split a character list at `'/'` separators (used to model `filepath.Clean`). -/
def splitSlash : List Char → List (List Char)
  | [] => [[]]
  | c :: rest =>
    match splitSlash rest with
    | [] => [[c]]
    | h :: t => if c = '/' then [] :: h :: t else (c :: h) :: t

/-- Stack-based element processing of Go `path/filepath.Clean` (Unix separators):
drop empty and `.` elements, resolve `..` against the previous element, keep
leading `..` elements of a relative path, and drop `..` at the root of a rooted
path. -/
def cleanStack (rooted : Bool) (elems : List (List Char)) : List (List Char) :=
  (elems.foldl (fun acc e =>
    if e = [] || e = ['.'] then acc
    else if e = ['.', '.'] then
      match acc with
      | [] => if rooted then [] else [['.', '.']]
      | a :: rest => if a = ['.', '.'] then e :: a :: rest else rest
    else e :: acc) []).reverse

/-- Model of Go `path/filepath.Clean` for Unix-style paths: lexically shortest
equivalent path (empty input becomes `.`). -/
def pathClean (path : String) : String :=
  if path = "" then "."
  else
    let rooted := path.data.head? = some '/'
    let joined := List.intercalate ['/'] (cleanStack rooted (splitSlash path.data))
    if rooted then ⟨'/' :: joined⟩
    else if joined = [] then "." else ⟨joined⟩

/-- Model of `isValidXESFile` (src/change.go): the lowercased path ends in `.xes`. -/
def isValidXESFile (filePath : String) : Bool :=
  hasSuffixGo (toLowerGo filePath) ".xes"

/-- Model of `keyMap[k] = struct\x7b\x7d{}` on the insertion-ordered key-set model:
append the key unless already present. -/
def insertKey (m : List String) (k : String) : List String :=
  if k ∈ m then m else m ++ [k]

/-- Model of `collectAttributeKeys` (src/change.go): for every trace, add its
string-attribute keys (with trace-level `concept:name` replaced by
`case:concept:name`), then for every event add its string- and date-attribute
keys unchanged. -/
def collectAttributeKeys (xes : XES) : List String :=
  xes.traces.foldl (fun keyMap trace =>
    let keyMap := trace.stringAttributes.foldl (fun m attr =>
      if attr.key = "concept:name" then insertKey m "case:concept:name"
      else insertKey m attr.key) keyMap
    trace.events.foldl (fun m event =>
      let m := event.stringAttributes.foldl (fun m' attr => insertKey m' attr.key) m
      event.dateAttributes.foldl (fun m' attr => insertKey m' attr.key) m) keyMap) []

/-- Model of `collectHeader` (src/change.go): trim each key of the key map. -/
def collectHeader (keyMap : List String) : List String :=
  keyMap.map fun key => trimSpace key

/-- Model of `findIndex` (src/change.go): index of the first occurrence of `key`
in `keys`, or `-1` when absent. -/
def findIndex (keys : List String) (key : String) : Int :=
  match keys with
  | [] => -1
  | k :: rest =>
    if k = key then 0
    else
      let r := findIndex rest key
      if r = -1 then -1 else r + 1

/-- Tagged attribute, modelling the `interface\x7b\x7d{}` parameter of `setAttributeValue`
together with its two-armed type switch. -/
inductive Attr where
  | string (a : StringAttribute)
  | date (a : DateAttribute)
deriving DecidableEq

/-- Key of a tagged attribute. -/
def Attr.key : Attr → String
  | .string a => a.key
  | .date a => a.key

/-- Value of a tagged attribute. -/
def Attr.value : Attr → String
  | .string a => a.value
  | .date a => a.value

/-- Model of `setAttributeValue` (src/change.go): look the attribute's key up in
`keys`; when found, overwrite that cell of the record with the trimmed value. -/
def setAttributeValue (record : List String) (keys : List String) (attr : Attr) : List String :=
  match attr with
  | .string v =>
    let index := findIndex keys v.key
    if index ≠ -1 then record.set index.toNat (trimSpace v.value) else record
  | .date v =>
    let index := findIndex keys v.key
    if index ≠ -1 then record.set index.toNat (trimSpace v.value) else record

/-- Body of the per-event loop of `writeXESToCSV` (src/change.go): allocate a
record of empty cells, apply the event's string attributes, then its date
attributes, then the trace's string attributes with `concept:name` renamed. -/
def makeRecord (keys : List String) (trace : Trace) (event : Event) : List String :=
  let record := List.replicate keys.length ""
  let record := event.stringAttributes.foldl
    (fun r attr => setAttributeValue r keys (Attr.string attr)) record
  let record := event.dateAttributes.foldl
    (fun r attr => setAttributeValue r keys (Attr.date attr)) record
  trace.stringAttributes.foldl (fun r attr =>
    let attr := if attr.key = "concept:name" then { attr with key := "case:concept:name" } else attr
    setAttributeValue r keys (Attr.string attr)) record

/-- Model of `writeXESToCSV` (src/change.go): the records handed to the CSV
writer, one per event, traces in order and events in order within each trace. -/
def writeXESToCSV (xes : XES) (keyMap : List String) : List (List String) :=
  let keys := collectHeader keyMap
  xes.traces.flatMap fun trace => trace.events.map fun event => makeRecord keys trace event

/-- File-system actions attempted by `ConvertXESToCSV`, in program order. -/
inductive FsAction where
  | openInput
  | createOutput
  | writeBOM
  | writeHeader (h : List String)
  | writeRecord (r : List String)
deriving DecidableEq

/-- Error outcomes of `ConvertXESToCSV` (write errors of the always-successful
model writer are not modelled). -/
inductive ConvError where
  | invalidExtension
  | fileOpenError
  | parseError
  | fileCreateError
deriving DecidableEq

instance : DecidableEq (Except ConvError (List (List String))) := fun a b =>
  match a, b with
  | .error e, .error f =>
    if h : e = f then .isTrue (congrArg Except.error h)
    else .isFalse fun hc => h (Except.error.inj hc)
  | .error _, .ok _ => .isFalse Except.noConfusion
  | .ok _, .error _ => .isFalse Except.noConfusion
  | .ok x, .ok y =>
    if h : x = y then .isTrue (congrArg Except.ok h)
    else .isFalse fun hc => h (Except.ok.inj hc)

/-- Outcome of a conversion: the trace of attempted file-system actions and the
final result (the emitted records on success). -/
structure ConvResult where
  actions : List FsAction
  result : Except ConvError (List (List String))
deriving DecidableEq

/-- Model of `ConvertXESToCSV` (src/change.go).  `openOk` is the outcome of
`os.Open`, `parsed` the outcome of `xml.Decode` (`none` = decode error), and
`createOk` the outcome of `os.Create`; the function sequences the same guards in
the same order as the source and records which file-system actions were
attempted. -/
def ConvertXESToCSV (xesFilePath : String) (openOk : Bool) (parsed : Option XES)
    (createOk : Bool) : ConvResult :=
  let inputPath := pathClean xesFilePath
  if ! isValidXESFile inputPath then ⟨[], .error .invalidExtension⟩
  else if ! openOk then ⟨[.openInput], .error .fileOpenError⟩
  else
    match parsed with
    | none => ⟨[.openInput], .error .parseError⟩
    | some xes =>
      let keyMap := collectAttributeKeys xes
      if ! createOk then ⟨[.openInput, .createOutput], .error .fileCreateError⟩
      else
        let rows := writeXESToCSV xes keyMap
        ⟨[.openInput, .createOutput, .writeBOM, .writeHeader (collectHeader keyMap)] ++
            rows.map FsAction.writeRecord,
          .ok rows⟩

/-- Spec-side rename rule: trace-level `concept:name` becomes `case:concept:name`. -/
def renameKey (k : String) : String :=
  if k = "concept:name" then "case:concept:name" else k

/-- Spec-side rename of a trace-level string attribute, as performed inline by
`writeXESToCSV` before calling `setAttributeValue`. -/
def renameAttr (a : StringAttribute) : StringAttribute :=
  if a.key = "concept:name" then { a with key := "case:concept:name" } else a

/-- Attribute keys contributed by one trace, in visiting order: renamed
trace-level string keys, then per event the string keys and date keys. -/
def traceKeys (t : Trace) : List String :=
  t.stringAttributes.map (fun a => renameKey a.key) ++
    t.events.flatMap fun e =>
      e.stringAttributes.map (fun a => a.key) ++ e.dateAttributes.map (fun a => a.key)

/-- Spec-side list of every attribute key appearing anywhere in the log, with
the trace-level rename applied, in visiting order (duplicates kept). -/
def logKeys (xes : XES) : List String :=
  xes.traces.flatMap traceKeys

/-- Attribute writes performed for one event's record, in application order:
event string attributes, event date attributes, then renamed trace string
attributes. -/
def orderedAttrs (trace : Trace) (event : Event) : List Attr :=
  event.stringAttributes.map Attr.string ++ event.dateAttributes.map Attr.date ++
    trace.stringAttributes.map fun a => Attr.string (renameAttr a)

/-- Last attribute in `attrs` whose key resolves to column `i`, if any. -/
def lastWriteTo (keys : List String) (attrs : List Attr) (i : Nat) : Option Attr :=
  attrs.reverse.find? fun a => findIndex keys (Attr.key a) == (i : Int)

/-- Events of the log in document order, each paired with its trace. -/
def documentOrderEvents (xes : XES) : List (Trace × Event) :=
  xes.traces.flatMap fun t => t.events.map fun e => (t, e)

/-- Outcomes of `findIndex`: either `-1`, or a valid index pointing at the key. -/
theorem findIndex_eq_or (keys : List String) (key : String) :
    findIndex keys key = -1 ∨
      ∃ i : Nat, findIndex keys key = (i : Int) ∧ i < keys.length ∧ keys[i]? = some key := by
  induction keys with
  | nil => exact Or.inl rfl
  | cons k rest ih =>
    by_cases hk : k = key
    · exact Or.inr ⟨0, by simp [findIndex, hk], by simp, by simp [hk]⟩
    · rcases ih with h | ⟨i, hi, hlt, hget⟩
      · left
        simp [findIndex, hk, h]
      · right
        refine ⟨i + 1, ?_, by simpa using Nat.succ_lt_succ hlt, by simpa using hget⟩
        have hne : (i : Int) ≠ -1 := by omega
        simp only [findIndex, if_neg hk, hi, if_neg hne]
        omega

/-- The two arms of `setAttributeValue`'s type switch do the same thing. -/
theorem setAttributeValue_eq (record keys : List String) (a : Attr) :
    setAttributeValue record keys a =
      if findIndex keys (Attr.key a) ≠ -1 then
        record.set (findIndex keys (Attr.key a)).toNat (trimSpace (Attr.value a))
      else record := by
  cases a <;> rfl

/-- A `setAttributeValue` call never changes the record's length. -/
theorem length_setAttributeValue (record keys : List String) (a : Attr) :
    (setAttributeValue record keys a).length = record.length := by
  rw [setAttributeValue_eq]
  split
  · exact List.length_set ..
  · rfl

/-- Cell contents after one `setAttributeValue` call: the trimmed value lands at
the looked-up index, every other cell is untouched; a failed lookup changes
nothing. -/
theorem getElem?_setAttributeValue (record keys : List String) (a : Attr) (i : Nat)
    (hlen : record.length = keys.length) :
    (setAttributeValue record keys a)[i]? =
      if findIndex keys (Attr.key a) = (i : Int) then some (trimSpace (Attr.value a))
      else record[i]? := by
  rw [setAttributeValue_eq]
  rcases findIndex_eq_or keys (Attr.key a) with h | ⟨j, hj, hlt, hget⟩
  · have h2 : ¬ ((-1 : Int) = (i : Int)) := by omega
    rw [h]
    simp [h2]
  · have hne : (j : Int) ≠ -1 := by omega
    have htn : ((j : Int)).toNat = j := by omega
    rw [hj, if_pos hne, htn, List.getElem?_set]
    by_cases hij : j = i
    · subst hij
      have hjr : j < record.length := by rw [hlen]; exact hlt
      simp [hjr]
    · have : ¬ ((j : Int) = (i : Int)) := by omega
      simp [hij, this]

/-- Folding `setAttributeValue` preserves the record's length. -/
theorem length_foldl_setAttributeValue (keys : List String) (attrs : List Attr)
    (r : List String) :
    (attrs.foldl (fun rc a => setAttributeValue rc keys a) r).length = r.length := by
  induction attrs generalizing r with
  | nil => rfl
  | cons a as ih => rw [List.foldl_cons, ih, length_setAttributeValue]

/-- Splitting the last write: the last write of `a :: as` to column `i` is the
last write of `as` to it when one exists, and otherwise `a` exactly when `a`'s
key resolves to `i`. -/
theorem lastWriteTo_cons (keys : List String) (a : Attr) (as : List Attr) (i : Nat) :
    lastWriteTo keys (a :: as) i =
      match lastWriteTo keys as i with
      | some b => some b
      | none => if findIndex keys (Attr.key a) == (i : Int) then some a else none := by
  unfold lastWriteTo
  rw [List.reverse_cons, List.find?_append]
  cases h : List.find? (fun x => findIndex keys (Attr.key x) == (i : Int)) as.reverse <;>
    simp [List.find?, Option.or]
  cases hb : findIndex keys (Attr.key a) == (i : Int) with
  | false => rw [if_neg (by simpa using hb)]
  | true => rw [if_pos (by simpa using hb)]

/-- Last-write-wins for a fold of `setAttributeValue` calls: cell `i` holds the
trimmed value of the last write that resolved to column `i`, or its initial
content when no write did. -/
theorem getElem?_foldl_setAttributeValue (keys : List String) (attrs : List Attr)
    (r : List String) (hlen : r.length = keys.length) (i : Nat) :
    (attrs.foldl (fun rc a => setAttributeValue rc keys a) r)[i]? =
      match lastWriteTo keys attrs i with
      | some a => some (trimSpace (Attr.value a))
      | none => r[i]? := by
  induction attrs generalizing r with
  | nil => rfl
  | cons a as ih =>
    have hlen' : (setAttributeValue r keys a).length = keys.length := by
      rw [length_setAttributeValue]; exact hlen
    rw [List.foldl_cons, ih _ hlen', lastWriteTo_cons]
    cases h : lastWriteTo keys as i with
    | some b => rfl
    | none =>
      rw [getElem?_setAttributeValue r keys a i hlen]
      by_cases hfi : findIndex keys (Attr.key a) = (i : Int) <;> simp [hfi]

/-- Pulling `insertKey` out of the rename conditional in `collectAttributeKeys`. -/
theorem stringFold_eq (m : List String) (l : List StringAttribute) :
    l.foldl (fun mm attr =>
        if attr.key = "concept:name" then insertKey mm "case:concept:name"
        else insertKey mm attr.key) m
      = (l.map fun a => renameKey a.key).foldl insertKey m := by
  rw [List.foldl_map]
  apply List.foldl_ext
  intro mm attr _
  by_cases h : attr.key = "concept:name" <;> simp [renameKey, h]

/-- Fusing adjacent `insertKey` folds via list append. -/
theorem foldl_insertKey_flat {α : Type} (l : List α) (g : α → List String) (m : List String) :
    l.foldl (fun acc x => (g x).foldl insertKey acc) m = (l.flatMap g).foldl insertKey m := by
  induction l generalizing m with
  | nil => rfl
  | cons x xs ih => rw [List.foldl_cons, ih, List.flatMap_cons, List.foldl_append]

/-- The event loop of `collectAttributeKeys` inserts exactly the events' string
keys followed by their date keys. -/
theorem eventFold_eq (m : List String) (l : List Event) :
    l.foldl (fun m' event =>
        let m'' := event.stringAttributes.foldl (fun mm attr => insertKey mm attr.key) m'
        event.dateAttributes.foldl (fun mm attr => insertKey mm attr.key) m'') m
      = (l.flatMap fun e =>
          e.stringAttributes.map (fun a => a.key) ++ e.dateAttributes.map (fun a => a.key)).foldl
          insertKey m := by
  rw [← foldl_insertKey_flat]
  apply List.foldl_ext
  intro m' e _
  rw [List.foldl_append, List.foldl_map, List.foldl_map]

/-- `collectAttributeKeys` is the plain `insertKey` fold over every (renamed)
attribute key of the log, in visiting order. -/
theorem collectAttributeKeys_eq (xes : XES) :
    collectAttributeKeys xes = (logKeys xes).foldl insertKey [] := by
  unfold collectAttributeKeys logKeys
  rw [← foldl_insertKey_flat]
  apply List.foldl_ext
  intro m t _
  show (t.events.foldl _ (t.stringAttributes.foldl _ m)) = _
  rw [stringFold_eq, eventFold_eq, ← List.foldl_append]
  rfl

/-- Membership in an `insertKey` step. -/
theorem mem_insertKey {m : List String} {k a : String} :
    a ∈ insertKey m k ↔ a ∈ m ∨ a = k := by
  unfold insertKey
  split
  · rename_i h
    constructor
    · exact Or.inl
    · rintro (h' | rfl)
      · exact h'
      · exact h
  · simp

/-- `insertKey` keeps the key list duplicate-free. -/
theorem nodup_insertKey {m : List String} (k : String) (h : m.Nodup) :
    (insertKey m k).Nodup := by
  unfold insertKey
  split
  · exact h
  · rename_i hk
    rw [List.nodup_append]
    refine ⟨h, List.nodup_singleton k, fun a ha hmem => ?_⟩
    rw [List.mem_singleton] at hmem
    exact hk (hmem ▸ ha)

/-- Membership in a fold of `insertKey` steps. -/
theorem mem_foldl_insertKey (ks : List String) (m : List String) (a : String) :
    a ∈ ks.foldl insertKey m ↔ a ∈ m ∨ a ∈ ks := by
  induction ks generalizing m with
  | nil => simp
  | cons k rest ih =>
    rw [List.foldl_cons, ih]
    rw [mem_insertKey]
    simp [or_assoc, or_comm, or_left_comm]

/-- A fold of `insertKey` steps keeps the key list duplicate-free. -/
theorem nodup_foldl_insertKey (ks : List String) (m : List String) (h : m.Nodup) :
    (ks.foldl insertKey m).Nodup := by
  induction ks generalizing m with
  | nil => exact h
  | cons k rest ih => exact ih _ (nodup_insertKey k h)

/-- The collected key map holds exactly the (renamed) keys of the log. -/
theorem mem_collectAttributeKeys (xes : XES) (k : String) :
    k ∈ collectAttributeKeys xes ↔ k ∈ logKeys xes := by
  rw [collectAttributeKeys_eq, mem_foldl_insertKey]
  simp

/-- The collected key map is duplicate-free. -/
theorem nodup_collectAttributeKeys (xes : XES) :
    (collectAttributeKeys xes).Nodup := by
  rw [collectAttributeKeys_eq]
  exact nodup_foldl_insertKey _ _ List.nodup_nil

/-- A nonempty `dropWhile` result starts with an element failing the predicate. -/
theorem dropWhile_head_false {α : Type} {p : α → Bool} {l : List α} {a : α} {as : List α}
    (h : l.dropWhile p = a :: as) : p a = false := by
  induction l with
  | nil => simp [List.dropWhile] at h
  | cons b bs ih =>
    rw [List.dropWhile_cons] at h
    split at h
    · exact ih h
    · rename_i hb
      cases h
      simpa using hb

/-- `dropWhile` leaves a list alone when its head already fails the predicate. -/
theorem dropWhile_of_head_false {α : Type} {p : α → Bool} {a : α} {as : List α}
    (h : p a = false) : (a :: as).dropWhile p = a :: as := by
  rw [List.dropWhile_cons, if_neg (by simp [h])]

/-- `dropWhile` is idempotent. -/
theorem dropWhile_dropWhile {α : Type} (p : α → Bool) (l : List α) :
    (l.dropWhile p).dropWhile p = l.dropWhile p := by
  cases h : l.dropWhile p with
  | nil => rfl
  | cons a as => exact dropWhile_of_head_false (dropWhile_head_false h)

/-- A nonempty list and any list it is a prefix of share their head. -/
theorem head_eq_of_listPre {α : Type} {l₁ l₂ : List α} {a : α} {as : List α}
    (h : l₁ <+: l₂) (h₁ : l₁ = a :: as) : ∃ bs, l₂ = a :: bs := by
  obtain ⟨t, rfl⟩ := h
  subst h₁
  exact ⟨as ++ t, rfl⟩

/-- Trimming character lists is idempotent. -/
theorem trimChars_trimChars (l : List Char) : trimChars (trimChars l) = trimChars l := by
  have hfix : ((((l.dropWhile isSpaceChar).reverse.dropWhile isSpaceChar).reverse).dropWhile
      isSpaceChar) = ((l.dropWhile isSpaceChar).reverse.dropWhile isSpaceChar).reverse := by
    have hpre : ((l.dropWhile isSpaceChar).reverse.dropWhile isSpaceChar).reverse <+:
        l.dropWhile isSpaceChar := by
      have h1 := List.reverse_prefix.mpr
        (List.dropWhile_suffix (l := (l.dropWhile isSpaceChar).reverse) isSpaceChar)
      simpa using h1
    cases hY : ((l.dropWhile isSpaceChar).reverse.dropWhile isSpaceChar).reverse with
    | nil => rfl
    | cons a as =>
      obtain ⟨bs, hbs⟩ := head_eq_of_listPre (hY ▸ hpre) rfl
      exact dropWhile_of_head_false (dropWhile_head_false hbs)
  unfold trimChars
  rw [hfix, List.reverse_reverse, dropWhile_dropWhile]

/-- `trimSpace` is idempotent, as trimming removes every leading and trailing
space character. -/
theorem trimSpace_trimSpace (s : String) : trimSpace (trimSpace s) = trimSpace s :=
  congrArg String.mk (trimChars_trimChars s.data)

/-- A key carrying surrounding whitespace never occurs in the header, since
every header entry is already trimmed. -/
theorem not_mem_collectHeader {keyMap : List String} {k : String} (h : trimSpace k ≠ k) :
    k ∉ collectHeader keyMap := by
  unfold collectHeader
  rw [List.mem_map]
  rintro ⟨s, _, heq⟩
  exact h (heq ▸ trimSpace_trimSpace s)

/-- An attribute whose key carries surrounding whitespace is skipped by
`setAttributeValue` when the column list is a header. -/
theorem setAttributeValue_skip {keyMap record : List String} {a : Attr}
    (h : trimSpace (Attr.key a) ≠ Attr.key a) :
    setAttributeValue record (collectHeader keyMap) a = record := by
  rw [setAttributeValue_eq]
  rcases findIndex_eq_or (collectHeader keyMap) (Attr.key a) with hf | ⟨i, hf, hlt, hget⟩
  · rw [hf]
    simp
  · exact absurd (List.getElem?_mem hget) (not_mem_collectHeader h)

/-- `makeRecord` is the fold of `setAttributeValue` over the event's string
attributes, its date attributes, and the renamed trace string attributes, in
that order, starting from a record of empty cells. -/
theorem makeRecord_eq_foldl (keys : List String) (trace : Trace) (event : Event) :
    makeRecord keys trace event =
      (orderedAttrs trace event).foldl (fun rc a => setAttributeValue rc keys a)
        (List.replicate keys.length "") := by
  unfold makeRecord orderedAttrs
  rw [List.foldl_append, List.foldl_append, List.foldl_map, List.foldl_map, List.foldl_map]
  apply List.foldl_ext
  intro r a _
  by_cases h : a.key = "concept:name" <;> simp [renameAttr, h]

/-- Every record built by `makeRecord` has one cell per column. -/
theorem length_makeRecord (keys : List String) (trace : Trace) (event : Event) :
    (makeRecord keys trace event).length = keys.length := by
  rw [makeRecord_eq_foldl, length_foldl_setAttributeValue, List.length_replicate]

/-- Cell contents of a finished record: the trimmed value of the last write
resolving to that column, or the empty string. -/
theorem getElem?_makeRecord (keys : List String) (trace : Trace) (event : Event)
    (i : Nat) (hi : i < keys.length) :
    (makeRecord keys trace event)[i]? =
      some (match lastWriteTo keys (orderedAttrs trace event) i with
            | some a => trimSpace (Attr.value a)
            | none => "") := by
  rw [makeRecord_eq_foldl,
    getElem?_foldl_setAttributeValue keys _ _ (List.length_replicate keys.length "") i]
  cases lastWriteTo keys (orderedAttrs trace event) i with
  | some a => rfl
  | none => simp [List.getElem?_replicate, hi]

/-- Renaming a trace attribute renames exactly its key. -/
theorem key_renameAttr (a : StringAttribute) : (renameAttr a).key = renameKey a.key := by
  by_cases h : a.key = "concept:name" <;> simp [renameAttr, renameKey, h]

/-- Renaming a trace attribute keeps its value. -/
theorem value_renameAttr (a : StringAttribute) : (renameAttr a).value = a.value := by
  by_cases h : a.key = "concept:name" <;> simp [renameAttr, h]

/-- The keys used for column lookup during emission: event keys unchanged,
trace keys renamed. -/
theorem map_key_orderedAttrs (trace : Trace) (event : Event) :
    (orderedAttrs trace event).map Attr.key =
      event.stringAttributes.map (fun a => a.key) ++ event.dateAttributes.map (fun a => a.key) ++
        trace.stringAttributes.map (fun a => renameKey a.key) := by
  unfold orderedAttrs
  simp [List.map_map, Function.comp_def, Attr.key, key_renameAttr]

/-- Any attribute applied while emitting an event of `trace` has its (renamed)
key among the trace's contributed keys. -/
theorem key_mem_traceKeys {trace : Trace} {event : Event} (hev : event ∈ trace.events)
    {a : Attr} (ha : a ∈ orderedAttrs trace event) : Attr.key a ∈ traceKeys trace := by
  unfold orderedAttrs at ha
  simp only [List.mem_append, List.mem_map] at ha
  unfold traceKeys
  simp only [List.mem_append, List.mem_map, List.mem_flatMap]
  rcases ha with (⟨sa, hsa, rfl⟩ | ⟨da, hda, rfl⟩) | ⟨sa, hsa, rfl⟩
  · exact Or.inr ⟨event, hev, Or.inl ⟨sa, hsa, rfl⟩⟩
  · exact Or.inr ⟨event, hev, Or.inr ⟨da, hda, rfl⟩⟩
  · exact Or.inl ⟨sa, hsa, (key_renameAttr sa).symm⟩

/-- Keys contributed by a trace of the log are keys of the log. -/
theorem traceKeys_subset_logKeys {xes : XES} {t : Trace} (ht : t ∈ xes.traces) {k : String}
    (hk : k ∈ traceKeys t) : k ∈ logKeys xes := by
  unfold logKeys
  rw [List.mem_flatMap]
  exact ⟨t, ht, hk⟩

/-- `writeXESToCSV` emits exactly one record per event, in document order. -/
theorem writeXESToCSV_eq (xes : XES) (keyMap : List String) :
    writeXESToCSV xes keyMap =
      (documentOrderEvents xes).map fun te => makeRecord (collectHeader keyMap) te.1 te.2 := by
  unfold writeXESToCSV documentOrderEvents
  rw [List.map_flatMap]
  simp [List.map_map, Function.comp_def]

/-- Every emitted row is the record of some event of some trace of the log. -/
theorem mem_writeXESToCSV {xes : XES} {keyMap : List String} {row : List String}
    (h : row ∈ writeXESToCSV xes keyMap) :
    ∃ t ∈ xes.traces, ∃ e ∈ t.events, row = makeRecord (collectHeader keyMap) t e := by
  unfold writeXESToCSV at h
  simp only [List.mem_flatMap, List.mem_map] at h
  obtain ⟨t, ht, e, he, hrow⟩ := h
  exact ⟨t, ht, e, he, hrow.symm⟩

/-- Log whose trace carries the attribute keys `"a"` and `" a"`, which trim to
the same column name. -/
def dupKeyLog : XES := ⟨[⟨[], [⟨"a", "x"⟩, ⟨" a", "y"⟩]⟩]⟩

/-- Log of the spec's concrete test scenario: one trace with string attribute
`concept:name` = `case1` and two events, one with a string attribute
`activity` = `start` and one with a date attribute `timestamp`. -/
def scenarioLog : XES :=
  ⟨[⟨[⟨[⟨"activity", "start"⟩], []⟩, ⟨[], [⟨"timestamp", "2024-01-01T00:00:00"⟩]⟩],
     [⟨"concept:name", "case1"⟩]⟩]⟩

/-- Log whose event carries the whitespace key `" a"` and also its trimmed form
`"a"`. -/
def collideKeyLog : XES := ⟨[⟨[⟨[⟨" a", "v1"⟩, ⟨"a", "v2"⟩], []⟩], []⟩]⟩

/-- Log with a single whitespace-carrying key and no colliding trimmed key. -/
def loneSpaceKeyLog : XES := ⟨[⟨[⟨[⟨" a", "v1"⟩], []⟩], []⟩]⟩

/-- C1 (counterexample): in `dupKeyLog` the attribute keys are `"a"` and `" a"`,
and the header is `["a", "a"]` — the trimmed key `"a"` appears twice, not
exactly once, because `collectHeader` trims keys only after `collectAttributeKeys`
de-duplicated the untrimmed keys.  The key map is in insertion order, one
admissible iteration order of the Go map; the count of `"a"` in the header is 2
under every iteration order. -/
theorem header_duplicate_counterexample :
    collectHeader (collectAttributeKeys dupKeyLog) = ["a", "a"] ∧
    (collectHeader (collectAttributeKeys dupKeyLog)).count "a" = 2 := by
  decide

/-- C1 (amended): provided every attribute key of the log is free of surrounding
whitespace, the header consists of exactly the attribute keys appearing anywhere
in the log — with the trace-level `concept:name` → `case:concept:name` rename
applied — each appearing exactly once, and no other columns appear.  Without
that proviso, distinct untrimmed keys sharing a trimmed form yield duplicate
header columns (see `header_duplicate_counterexample`). -/
theorem header_exact_columns (xes : XES) (h : ∀ k ∈ logKeys xes, trimSpace k = k)
    (k : String) :
    (collectHeader (collectAttributeKeys xes)).count k =
      if k ∈ logKeys xes then 1 else 0 := by
  have hmap : collectHeader (collectAttributeKeys xes) = collectAttributeKeys xes := by
    unfold collectHeader
    have h2 : ∀ s ∈ collectAttributeKeys xes, trimSpace s = s := fun s hs =>
      h s ((mem_collectAttributeKeys xes s).mp hs)
    rw [List.map_congr_left h2]
    simp
  rw [hmap]
  by_cases hk : k ∈ logKeys xes
  · rw [if_pos hk]
    exact List.count_eq_one_of_mem (nodup_collectAttributeKeys xes)
      ((mem_collectAttributeKeys xes k).mpr hk)
  · rw [if_neg hk]
    exact List.count_eq_zero.mpr fun hc => hk ((mem_collectAttributeKeys xes k).mp hc)

/-- C1 witness: the amended header property evaluated on the scenario log at the
key `"activity"`. -/
theorem header_exact_columns_witness :
    (collectHeader (collectAttributeKeys scenarioLog)).count "activity" =
      if "activity" ∈ logKeys scenarioLog then 1 else 0 :=
  header_exact_columns scenarioLog (by decide) "activity"

/-- C2: a record's attributes are applied in order — event string attributes,
then event date attributes, then renamed trace string attributes — with each
later write to a column index overwriting earlier ones: cell `i` holds the
trimmed value of the last applied attribute resolving to column `i` (the empty
string if none does); in particular, whenever some renamed trace-level string
attribute resolves to column `i`, the last such attribute's value is the one
emitted, overriding any event-level write to the same column. -/
theorem record_write_order (keys : List String) (trace : Trace) (event : Event)
    (i : Nat) (hi : i < keys.length) :
    ((makeRecord keys trace event)[i]? =
      some (match lastWriteTo keys (orderedAttrs trace event) i with
            | some a => trimSpace (Attr.value a)
            | none => "")) ∧
    (∀ a : Attr,
      lastWriteTo keys (trace.stringAttributes.map fun x => Attr.string (renameAttr x)) i =
          some a →
      (makeRecord keys trace event)[i]? = some (trimSpace (Attr.value a))) := by
  refine ⟨getElem?_makeRecord keys trace event i hi, fun a ha => ?_⟩
  rw [getElem?_makeRecord keys trace event i hi]
  have hlast : lastWriteTo keys (orderedAttrs trace event) i = some a := by
    unfold lastWriteTo at ha ⊢
    unfold orderedAttrs
    rw [List.reverse_append, List.find?_append, ha]
    rfl
  rw [hlast]

/-- C2 witness: with header `["case:concept:name"]`, an event-level attribute
writes `"E"` and the renamed trace-level attribute then overwrites it with `"T"`. -/
theorem record_write_order_witness :
    (makeRecord ["case:concept:name"]
        ⟨[⟨[⟨"case:concept:name", "E"⟩], []⟩], [⟨"concept:name", "T"⟩]⟩
        ⟨[⟨"case:concept:name", "E"⟩], []⟩)[0]? = some "T" := by
  have h := record_write_order ["case:concept:name"]
    ⟨[⟨[⟨"case:concept:name", "E"⟩], []⟩], [⟨"concept:name", "T"⟩]⟩
    ⟨[⟨"case:concept:name", "E"⟩], []⟩ 0 (by decide)
  exact (h.2 (Attr.string ⟨"case:concept:name", "T"⟩) (by decide)).trans (by decide)

/-- C3: the emitted data rows are exactly one per event in document order (trace
order, then event order within each trace), and their number is the total
number of events summed over all traces. -/
theorem row_count_document_order (xes : XES) (keyMap : List String) :
    writeXESToCSV xes keyMap =
      (documentOrderEvents xes).map (fun te => makeRecord (collectHeader keyMap) te.1 te.2) ∧
    (writeXESToCSV xes keyMap).length = (xes.traces.map fun t => t.events.length).sum := by
  refine ⟨writeXESToCSV_eq xes keyMap, ?_⟩
  unfold writeXESToCSV
  rw [List.length_flatMap]
  simp [Function.comp_def]

/-- C4: the `concept:name` → `case:concept:name` rename applies exactly to
trace-level string attributes, both when collecting column keys (key-map
membership is over event keys unchanged and trace keys renamed) and when placing
values during emission (the keys looked up while writing a record are the event
keys unchanged followed by the renamed trace keys); event-level string and date
keys are never renamed. -/
theorem rename_only_trace_level (xes : XES) (k : String) (keys : List String)
    (trace : Trace) (event : Event) :
    (k ∈ collectAttributeKeys xes ↔
      (∃ t ∈ xes.traces, ∃ a ∈ t.stringAttributes, renameKey a.key = k) ∨
      (∃ t ∈ xes.traces, ∃ e ∈ t.events,
        (∃ a ∈ e.stringAttributes, a.key = k) ∨ (∃ a ∈ e.dateAttributes, a.key = k))) ∧
    ((orderedAttrs trace event).map Attr.key =
      event.stringAttributes.map (fun a => a.key) ++ event.dateAttributes.map (fun a => a.key) ++
        trace.stringAttributes.map fun a => renameKey a.key) ∧
    (makeRecord keys trace event =
      (orderedAttrs trace event).foldl (fun rc a => setAttributeValue rc keys a)
        (List.replicate keys.length "")) := by
  refine ⟨?_, map_key_orderedAttrs trace event, makeRecord_eq_foldl keys trace event⟩
  rw [mem_collectAttributeKeys]
  unfold logKeys traceKeys
  simp only [List.mem_flatMap, List.mem_append, List.mem_map]
  constructor
  · rintro ⟨t, ht, hk⟩
    rcases hk with ⟨a, ha, rfl⟩ | ⟨e, he, hk⟩
    · exact Or.inl ⟨t, ht, a, ha, rfl⟩
    · rcases hk with ⟨a, ha, rfl⟩ | ⟨a, ha, rfl⟩
      · exact Or.inr ⟨t, ht, e, he, Or.inl ⟨a, ha, rfl⟩⟩
      · exact Or.inr ⟨t, ht, e, he, Or.inr ⟨a, ha, rfl⟩⟩
  · rintro (⟨t, ht, a, ha, rfl⟩ | ⟨t, ht, e, he, hk⟩)
    · exact ⟨t, ht, Or.inl ⟨a, ha, rfl⟩⟩
    · rcases hk with ⟨a, ha, rfl⟩ | ⟨a, ha, rfl⟩
      · exact ⟨t, ht, Or.inr ⟨e, he, Or.inl ⟨a, ha, rfl⟩⟩⟩
      · exact ⟨t, ht, Or.inr ⟨e, he, Or.inr ⟨a, ha, rfl⟩⟩⟩

/-- C5 (counterexample): in `collideKeyLog` the event has the keys `" a"` and
`"a"`.  The whitespace key `" a"` occupies key-map position 0 and its header
column reads `"a"`, its trimmed form; the write for `" a"` itself is skipped,
but the attribute with key `"a"` fills that very column with `"v2"`, so the
column of the whitespace-carrying key is not empty in every row.  Key-map order
is insertion order, one admissible Go map iteration order. -/
theorem whitespace_key_counterexample :
    (collectAttributeKeys collideKeyLog)[0]? = some " a" ∧
    trimSpace " a" ≠ " a" ∧
    (collectHeader (collectAttributeKeys collideKeyLog))[0]? = some (trimSpace " a") ∧
    writeXESToCSV collideKeyLog (collectAttributeKeys collideKeyLog) = [["v2", ""]] := by
  decide

/-- C5 (amended): an attribute whose key carries surrounding whitespace is never
written to any cell — the header holds only the trimmed form of its key while
the lookup uses the untrimmed key, which trimming can never produce — and its
column remains empty in every row provided no attribute key of the log equals
the trimmed form (`whitespace_key_counterexample` shows the proviso is needed). -/
theorem whitespace_key_skipped :
    (∀ (keyMap record : List String) (a : Attr), trimSpace (Attr.key a) ≠ Attr.key a →
      setAttributeValue record (collectHeader keyMap) a = record) ∧
    (∀ (xes : XES) (j : Nat) (k : String),
      (collectAttributeKeys xes)[j]? = some k →
      trimSpace k ≠ k →
      trimSpace k ∉ logKeys xes →
      ∀ row ∈ writeXESToCSV xes (collectAttributeKeys xes), row[j]? = some "") := by
  refine ⟨fun keyMap record a h => setAttributeValue_skip h, ?_⟩
  intro xes j k hj hk hnotin row hrow
  obtain ⟨t, ht, e, he, rfl⟩ := mem_writeXESToCSV hrow
  have hjlt : j < (collectAttributeKeys xes).length := by
    by_contra hge
    rw [List.getElem?_eq_none (Nat.le_of_not_lt hge)] at hj
    cases hj
  have hjh : j < (collectHeader (collectAttributeKeys xes)).length := by
    unfold collectHeader
    rw [List.length_map]
    exact hjlt
  rw [getElem?_makeRecord _ t e j hjh]
  have hnone :
      lastWriteTo (collectHeader (collectAttributeKeys xes)) (orderedAttrs t e) j = none := by
    unfold lastWriteTo
    rw [List.find?_eq_none]
    intro a ha hpa
    rw [List.mem_reverse] at ha
    have hfi : findIndex (collectHeader (collectAttributeKeys xes)) (Attr.key a) = (j : Int) := by
      simpa using hpa
    rcases findIndex_eq_or (collectHeader (collectAttributeKeys xes)) (Attr.key a) with
      hf | ⟨i, hf, hlt, hget⟩
    · rw [hf] at hfi
      omega
    · rw [hf] at hfi
      have hij : i = j := by exact_mod_cast hfi
      subst hij
      have hhk : (collectHeader (collectAttributeKeys xes))[i]? = some (trimSpace k) := by
        unfold collectHeader
        rw [List.getElem?_map, hj]
        rfl
      rw [hget] at hhk
      have hka : Attr.key a = trimSpace k := by
        injection hhk
      exact hnotin (hka ▸ traceKeys_subset_logKeys ht (key_mem_traceKeys he ha))
  rw [hnone]

/-- C5 witness: the skip on a concrete record, and the empty column on the
one-row log `loneSpaceKeyLog`, whose only attribute key is `" a"`. -/
theorem whitespace_key_skipped_witness :
    setAttributeValue ["x"] (collectHeader ["a"]) (Attr.string ⟨" a", "v"⟩) = ["x"] ∧
    ∀ row ∈ writeXESToCSV loneSpaceKeyLog (collectAttributeKeys loneSpaceKeyLog),
      row[0]? = some "" :=
  ⟨whitespace_key_skipped.1 ["a"] ["x"] (Attr.string ⟨" a", "v"⟩) (by decide),
    whitespace_key_skipped.2 loneSpaceKeyLog 0 " a" (by decide) (by decide) (by decide)⟩

/-- C6: the spec's concrete scenario: the header consists of the columns
`case:concept:name`, `activity`, `timestamp` (in the insertion order the model
realizes), the first row holds `case1`, `start` and the empty string under
those columns, and the second row holds `case1`, the empty string and
`2024-01-01T00:00:00`. -/
theorem concrete_scenario :
    collectHeader (collectAttributeKeys scenarioLog) =
      ["case:concept:name", "activity", "timestamp"] ∧
    writeXESToCSV scenarioLog (collectAttributeKeys scenarioLog) =
      [["case1", "start", ""], ["case1", "", "2024-01-01T00:00:00"]] := by
  decide

/-- C7: when XML decoding fails on a valid-extension input that opened
successfully, the conversion returns the parse error and the only file-system
action attempted is opening the input; in particular the output file is never
created or modified — decoding happens strictly before output creation. -/
theorem parse_error_no_output (path : String) (openOk createOk : Bool)
    (hv : isValidXESFile (pathClean path) = true) (ho : openOk = true) :
    (ConvertXESToCSV path openOk none createOk).actions = [FsAction.openInput] ∧
    (ConvertXESToCSV path openOk none createOk).result = Except.error ConvError.parseError ∧
    FsAction.createOutput ∉ (ConvertXESToCSV path openOk none createOk).actions := by
  subst ho
  simp only [ConvertXESToCSV, hv]
  simp

/-- C7 witness: a concrete invocation on `"a.xes"` with a failing decode. -/
theorem parse_error_no_output_witness :
    (ConvertXESToCSV "a.xes" true none false).actions = [FsAction.openInput] ∧
    (ConvertXESToCSV "a.xes" true none false).result = Except.error ConvError.parseError ∧
    FsAction.createOutput ∉ (ConvertXESToCSV "a.xes" true none false).actions :=
  parse_error_no_output "a.xes" true false (by decide) rfl

/-- C8 (counterexample): the input path `"foo.xes/."` does not end in `.xes`,
yet the conversion neither fails with the invalid-extension error nor stops
before file input/output — it attempts to open the input — because
`ConvertXESToCSV` first applies `filepath.Clean`, which rewrites the path to
`"foo.xes"`. -/
theorem extension_check_counterexample :
    isValidXESFile "foo.xes/." = false ∧
    pathClean "foo.xes/." = "foo.xes" ∧
    (ConvertXESToCSV "foo.xes/." false none false).result ≠
      Except.error ConvError.invalidExtension ∧
    FsAction.openInput ∈ (ConvertXESToCSV "foo.xes/." false none false).actions := by
  decide

/-- C8 (amended): the extension check applies to `filepath.Clean` of the input
path: when the cleaned path does not end in `.xes` under case-insensitive
comparison, the conversion fails with the invalid-extension error before any
file-system action is attempted; when the cleaned path does end in `.xes` (any
letter case), the extension check passes — the result is never the
invalid-extension error. -/
theorem extension_check (path : String) (openOk createOk : Bool) (parsed : Option XES) :
    (isValidXESFile (pathClean path) = false →
      (ConvertXESToCSV path openOk parsed createOk).result =
          Except.error ConvError.invalidExtension ∧
      (ConvertXESToCSV path openOk parsed createOk).actions = []) ∧
    (isValidXESFile (pathClean path) = true →
      (ConvertXESToCSV path openOk parsed createOk).result ≠
          Except.error ConvError.invalidExtension) := by
  constructor
  · intro hv
    simp [ConvertXESToCSV, hv]
  · intro hv
    simp only [ConvertXESToCSV, hv]
    cases openOk
    · simp
    · cases parsed
      · simp
      · cases createOk <;> simp

/-- C8 witness: the amended extension check evaluated at `"foo.txt"` (rejected
with no file-system action) and at `"FOO.XES"` (accepted despite upper case). -/
theorem extension_check_witness :
    ((ConvertXESToCSV "foo.txt" true none true).result =
        Except.error ConvError.invalidExtension ∧
      (ConvertXESToCSV "foo.txt" true none true).actions = []) ∧
    (ConvertXESToCSV "FOO.XES" true none true).result ≠
      Except.error ConvError.invalidExtension :=
  ⟨(extension_check "foo.txt" true true none).1 (by decide),
    (extension_check "FOO.XES" true true none).2 (by decide)⟩

/-- C9: when an attribute's key matches a header column, `setAttributeValue`
writes the attribute's value trimmed of surrounding whitespace into that cell;
in particular the value `"  foo  "` is emitted as `"foo"`. -/
theorem cell_value_trimmed (record keys : List String) (a : Attr) (i : Nat)
    (hlen : record.length = keys.length)
    (hfind : findIndex keys (Attr.key a) = (i : Int)) :
    (setAttributeValue record keys a)[i]? = some (trimSpace (Attr.value a)) ∧
    trimSpace "  foo  " = "foo" := by
  refine ⟨?_, by decide⟩
  rw [getElem?_setAttributeValue record keys a i hlen, if_pos hfind]

/-- C9 witness: writing the value `"  foo  "` under key `"k"` into a one-column
record emits the cell `"foo"`. -/
theorem cell_value_trimmed_witness :
    (setAttributeValue [""] ["k"] (Attr.string ⟨"k", "  foo  "⟩))[0]? = some "foo" :=
  ((cell_value_trimmed [""] ["k"] (Attr.string ⟨"k", "  foo  "⟩) 0 rfl (by decide)).1).trans
    (by decide)

/-- C10: every emitted row has exactly one cell per header column, and
`findIndex` returns either `-1` — in which case the write is skipped — or an
index that is in bounds: nonnegative and strictly below the column count, so
every performed cell write is in bounds. -/
theorem rows_in_bounds (xes : XES) (keyMap keys : List String) (key : String) :
    (∀ row ∈ writeXESToCSV xes keyMap, row.length = (collectHeader keyMap).length) ∧
    (findIndex keys key = -1 ∨
      ∃ i : Nat, findIndex keys key = (i : Int) ∧ (findIndex keys key).toNat = i ∧
        i < keys.length) := by
  constructor
  · intro row hrow
    obtain ⟨t, ht, e, he, rfl⟩ := mem_writeXESToCSV hrow
    exact length_makeRecord _ t e
  · rcases findIndex_eq_or keys key with h | ⟨i, hi, hlt, hget⟩
    · exact Or.inl h
    · exact Or.inr ⟨i, hi, by rw [hi]; omega, hlt⟩

/-- C10 witness: a row length on the scenario log, and the `findIndex` outcome
for an absent key. -/
theorem rows_in_bounds_witness :
    ["case1", "start", ""].length =
      (collectHeader (collectAttributeKeys scenarioLog)).length ∧
    (findIndex ["a"] "b" = -1 ∨
      ∃ i : Nat, findIndex ["a"] "b" = (i : Int) ∧ (findIndex ["a"] "b").toNat = i ∧
        i < (["a"] : List String).length) :=
  ⟨(rows_in_bounds scenarioLog (collectAttributeKeys scenarioLog) ["a"] "b").1
      ["case1", "start", ""] (by decide),
    (rows_in_bounds scenarioLog (collectAttributeKeys scenarioLog) ["a"] "b").2⟩

end XesToCsv
